import Mathlib

/-!
Verification of the t-siris threshold anonymous-credential library.

The Rust source is generic over an arbitrary Type-3 pairing
`E : Pairing` with scalar field `F`, groups `G1`, `G2` and target group
`GT`.  We embed it in the standard symbolic (exponent) instantiation of
such a generic bilinear group: every group is the additive group of the
scalar field `F` itself (an element `g^a` of a cyclic group is
represented by its exponent relative to nothing in particular -- any
`F`-line works), scalar multiplication `P.mul(s)` becomes field
multiplication `s * P`, `msm` becomes a sum of products, the pairing
`e : G1 × G2 → GT` becomes field multiplication (it is `F`-bilinear),
the Miller-loop product becomes addition in the exponent and the final
exponentiation is the identity.  Group identities proved in this model
are exactly the identities that hold for the generic code over every
pairing instantiation, which is the level at which the specification
speaks.

Randomness (`rng` arguments in the source) is made explicit: every
random draw of the Rust code becomes an explicit argument of the Lean
function, in the order the source samples it.  Serialized byte buffers
(`Vec<u8>`) between `prove` and `verify` are modelled by the
deserialized structure they encode; `ark_serialize` round-trips are the
identity on that data.  Rust panics (out-of-bounds indexing, `unwrap`
on `None`) are modelled by `Option`, with `none` for the panic.
-/

namespace TSiris

variable {F : Type} [Field F] [DecidableEq F]

/-- Multi-scalar multiplication `E::G1::msm_unchecked(bases, scalars)` in the
exponent model: the sum of `scalars[i] * bases[i]` over the common length. -/
def msm (bases scalars : List F) : F :=
  (List.zipWith (fun b s => s * b) bases scalars).sum

/-! ## shamir.rs -/

/-- Horner evaluation of the coefficient vector used by `generate_shares`
(src/shamir.rs lines 34-38): `y = c[t-1]; for j in (0..t-1).rev() { y = y*x + c[j] }`. -/
def hornerEval (coefficients : List F) (x : F) : F :=
  coefficients.foldr (fun c acc => acc * x + c) 0

/-- `generate_shares` (src/shamir.rs lines 7-44).  The random coefficients
`a_1, ..., a_{t-1}` drawn from the RNG are the explicit argument `coeffs`
(the source asserts `threshold > 0` and `num_shares >= threshold`; the
claims carry those preconditions).  Shares are the evaluations of the
degree-`t-1` polynomial at `1, 2, ..., num_shares`. -/
def generate_shares (secret : F) (threshold num_shares : ℕ) (coeffs : List F) :
    List (ℕ × F) :=
  let coefficients := secret :: coeffs.take (threshold - 1)
  (List.range num_shares).map (fun i => (i + 1, hornerEval coefficients ((i + 1 : ℕ) : F)))

/-- The Lagrange-interpolation-at-`0` sum of src/shamir.rs lines 56-74 over a
full share list, skipping the diagonal by *position* (the source compares
`enumerate` positions `i != j`). -/
def lagrangeInterpolateAtZero (s : List (ℕ × F)) : F :=
  ∑ i : Fin s.length, (s.get i).2 *
    ∏ j : Fin s.length,
      if i = j then 1
      else (0 - ((s.get j).1 : F)) * (((s.get i).1 : F) - ((s.get j).1 : F))⁻¹

/-- `reconstruct_secret` (src/shamir.rs lines 47-77): keep only the first
`threshold` shares (`let shares = &shares[0..threshold]`), then
Lagrange-interpolate at `0`. -/
def reconstruct_secret (shares : List (ℕ × F)) (threshold : ℕ) : F :=
  lagrangeInterpolateAtZero (shares.take threshold)

/-! ## Polynomial bridge for the Shamir proofs -/

/-- Every coefficient list is the coefficient list of a polynomial of degree
below its length, whose evaluation is `hornerEval` and whose value at `0` is
the leading entry (the shared secret). -/
theorem exists_poly_of_coeffs (cs : List F) :
    ∃ p : Polynomial F, p.degree < (cs.length : ℕ) ∧
      (∀ x : F, hornerEval cs x = p.eval x) ∧ p.eval 0 = cs.headD 0 := by
  induction cs with
  | nil =>
      refine ⟨0, ?_, fun x => by simp [hornerEval], by simp⟩
      simpa using (WithBot.bot_lt_coe (0 : ℕ))
  | cons c rest ih =>
      obtain ⟨p, hdeg, heval, _⟩ := ih
      have hX : (Polynomial.X * p).degree < ((rest.length + 1 : ℕ) : WithBot ℕ) := by
        rcases eq_or_ne p 0 with h0 | h0
        · simpa [h0] using (WithBot.bot_lt_coe (rest.length + 1))
        · rw [Polynomial.degree_mul, Polynomial.degree_X, Polynomial.degree_eq_natDegree h0]
          have hdlt : p.natDegree < rest.length :=
            (Polynomial.natDegree_lt_iff_degree_lt h0).mpr hdeg
          have h1 : (1 : WithBot ℕ) + (p.natDegree : WithBot ℕ) =
              ((p.natDegree + 1 : ℕ) : WithBot ℕ) := by push_cast; ring
          rw [h1]
          exact_mod_cast Nat.succ_lt_succ hdlt
      have hC : (Polynomial.C c).degree < ((rest.length + 1 : ℕ) : WithBot ℕ) :=
        lt_of_le_of_lt Polynomial.degree_C_le
          (by exact_mod_cast WithBot.coe_lt_coe.mpr (Nat.succ_pos _))
      refine ⟨Polynomial.C c + Polynomial.X * p, ?_, ?_, by simp⟩
      · calc (Polynomial.C c + Polynomial.X * p).degree
            ≤ max (Polynomial.C c).degree (Polynomial.X * p).degree :=
              Polynomial.degree_add_le _ _
          _ < ((rest.length + 1 : ℕ) : WithBot ℕ) := max_lt hC hX
          _ = (((c :: rest).length : ℕ) : WithBot ℕ) := by simp
      · intro x
        simp only [hornerEval, List.foldr_cons, Polynomial.eval_add, Polynomial.eval_C,
          Polynomial.eval_mul, Polynomial.eval_X]
        rw [show rest.foldr (fun c acc => acc * x + c) 0 = hornerEval rest x from rfl, heval x]
        ring

/-- Core interpolation fact behind both `reconstruct_secret` and
`compute_lagrange_coefficient`: the positional Lagrange weights at `0`
recover `p.eval 0` from the values of a polynomial of degree `< t` at `t`
distinct nodes. -/
theorem sum_lagrange_pos_eval_zero {t : ℕ} (v : Fin t → F)
    (hv : Function.Injective v) (p : Polynomial F) (hdeg : p.degree < (t : ℕ)) :
    ∑ i : Fin t, p.eval (v i) *
      (∏ j : Fin t, if i = j then 1 else (0 - v j) * (v i - v j)⁻¹) = p.eval 0 := by
  classical
  have hcard : ((Finset.univ : Finset (Fin t)).card : WithBot ℕ) = (t : ℕ) := by simp
  have hinj : Set.InjOn v (Finset.univ : Finset (Fin t)) := fun a _ b _ hab => hv hab
  have hinterp := Lagrange.eq_interpolate (v := v) (s := Finset.univ) hinj (by rw [hcard]; exact hdeg)
  have hbasis : ∀ i : Fin t, (Lagrange.basis Finset.univ v i).eval 0 =
      ∏ j : Fin t, if i = j then 1 else (0 - v j) * (v i - v j)⁻¹ := by
    intro i
    rw [Lagrange.basis, Polynomial.eval_prod]
    have hprod : ∀ j ∈ Finset.univ.erase i,
        (Lagrange.basisDivisor (v i) (v j)).eval 0 = (0 - v j) * (v i - v j)⁻¹ := by
      intro j _
      simp only [Lagrange.basisDivisor, Polynomial.eval_mul, Polynomial.eval_C,
        Polynomial.eval_sub, Polynomial.eval_X]
      ring
    rw [Finset.prod_congr rfl hprod]
    calc ∏ j ∈ Finset.univ.erase i, (0 - v j) * (v i - v j)⁻¹
        = ∏ j ∈ Finset.univ ∩ Finset.univ.erase i, (0 - v j) * (v i - v j)⁻¹ := by
          rw [Finset.univ_inter]
      _ = ∏ j : Fin t, if j ∈ Finset.univ.erase i then (0 - v j) * (v i - v j)⁻¹ else 1 :=
          (Finset.prod_ite_mem _ _ _).symm
      _ = ∏ j : Fin t, if i = j then 1 else (0 - v j) * (v i - v j)⁻¹ := by
          refine Finset.prod_congr rfl ?_
          intro j _
          by_cases h : i = j
          · simp [h]
          · simp [Finset.mem_erase, h, Ne.symm h]
  calc ∑ i : Fin t, p.eval (v i) *
        (∏ j : Fin t, if i = j then 1 else (0 - v j) * (v i - v j)⁻¹)
      = ∑ i : Fin t, p.eval (v i) * (Lagrange.basis Finset.univ v i).eval 0 := by
        refine Finset.sum_congr rfl ?_
        intro i _
        rw [hbasis i]
    _ = (Lagrange.interpolate Finset.univ v (fun i => p.eval (v i))).eval 0 := by
        rw [Lagrange.interpolate_apply, Polynomial.eval_finset_sum]
        refine Finset.sum_congr rfl ?_
        intro i _
        simp
    _ = p.eval 0 := by rw [← hinterp]

theorem generate_shares_map_fst (secret : F) (t n : ℕ) (coeffs : List F) :
    (generate_shares secret t n coeffs).map Prod.fst = (List.range n).map (· + 1) := by
  simp [generate_shares]

theorem mem_generate_shares (secret : F) (t n : ℕ) (coeffs : List F) {pr : ℕ × F}
    (h : pr ∈ generate_shares secret t n coeffs) :
    1 ≤ pr.1 ∧ pr.1 ≤ n ∧
      pr.2 = hornerEval (secret :: coeffs.take (t - 1)) ((pr.1 : ℕ) : F) := by
  simp only [generate_shares, List.mem_map, List.mem_range] at h
  obtain ⟨i, hi, hpr⟩ := h
  refine ⟨?_, ?_, ?_⟩
  · rw [← hpr]; exact Nat.succ_le_succ (Nat.zero_le i)
  · rw [← hpr]; exact hi
  · rw [← hpr]

/-- Reconstruction from any `t` shares that carry values of a polynomial of
degree `< t` at distinct small indices recovers `p.eval 0`. -/
theorem reconstruct_eval (s : List (ℕ × F)) (t n : ℕ) (p : Polynomial F)
    (hlen : s.length = t)
    (hnodup : (s.map Prod.fst).Nodup)
    (hbound : ∀ pr ∈ s, pr.1 ≤ n)
    (hval : ∀ pr ∈ s, pr.2 = p.eval ((pr.1 : ℕ) : F))
    (hdeg : p.degree < (t : ℕ))
    (hcast : ∀ i j : ℕ, i ≤ n → j ≤ n → (i : F) = (j : F) → i = j) :
    reconstruct_secret s t = p.eval 0 := by
  have htake : s.take t = s := List.take_of_length_le (le_of_eq hlen)
  have hidx : ∀ i j : Fin s.length, (s.get i).1 = (s.get j).1 → i = j := by
    intro i j hij
    have hi : (i : ℕ) < (s.map Prod.fst).length := by simpa using i.isLt
    have hj : (j : ℕ) < (s.map Prod.fst).length := by simpa using j.isLt
    have h := (@List.Nodup.getElem_inj_iff _ _ hnodup _ hi _ hj).mp
      (by simpa [List.getElem_map, List.get_eq_getElem] using hij)
    exact Fin.ext h
  have hv : Function.Injective (fun i : Fin s.length => (((s.get i).1 : ℕ) : F)) := by
    intro i j hij
    exact hidx i j
      (hcast _ _ (hbound _ (List.get_mem s i.1 i.2)) (hbound _ (List.get_mem s j.1 j.2)) hij)
  have hdeg' : p.degree < ((s.length : ℕ) : WithBot ℕ) := by rw [hlen]; exact hdeg
  have hmain := sum_lagrange_pos_eval_zero (t := s.length)
    (fun i => (((s.get i).1 : ℕ) : F)) hv p hdeg'
  rw [reconstruct_secret, htake, ← hmain, lagrangeInterpolateAtZero]
  refine Finset.sum_congr rfl ?_
  intro i _
  rw [hval _ (List.get_mem s i.1 i.2)]

/-- C6: Shamir correctness.  For `1 ≤ t ≤ n` (indices `1..n` distinct as
field elements), every choice of the random polynomial coefficients, and any
`t`-subset of the generated shares, `reconstruct_secret` at threshold `t`
returns the secret. -/
theorem shamir_correctness (secret : F) (t n : ℕ) (coeffs : List F)
    (ht : 1 ≤ t) (htn : t ≤ n)
    (hcast : ∀ i j : ℕ, i ≤ n → j ≤ n → (i : F) = (j : F) → i = j)
    (sub : List (ℕ × F)) (hsub : sub.Sublist (generate_shares secret t n coeffs))
    (hlen : sub.length = t) :
    reconstruct_secret sub t = secret := by
  obtain ⟨p, hdeg, heval, h0⟩ := exists_poly_of_coeffs (secret :: coeffs.take (t - 1))
  have hlencs : (secret :: coeffs.take (t - 1)).length ≤ t := by
    simp only [List.length_cons, List.length_take]
    omega
  have hdeg' : p.degree < (t : ℕ) :=
    lt_of_lt_of_le hdeg (by exact_mod_cast hlencs)
  have hnodupBig : ((generate_shares secret t n coeffs).map Prod.fst).Nodup := by
    rw [generate_shares_map_fst]
    exact (List.nodup_range n).map (add_left_injective 1)
  have hnodup : (sub.map Prod.fst).Nodup :=
    (hsub.map Prod.fst).nodup hnodupBig
  refine (reconstruct_eval sub t n p hlen hnodup ?_ ?_ hdeg' hcast).trans ?_
  · intro pr hpr
    exact (mem_generate_shares secret t n coeffs (hsub.subset hpr)).2.1
  · intro pr hpr
    have h := (mem_generate_shares secret t n coeffs (hsub.subset hpr)).2.2
    rw [h, heval]
  · rw [h0]; rfl

/-! ## errors.rs -/

/-- `CommitmentError` (src/errors.rs lines 6-24); the serialization payload is
dropped since byte-level serialization stays outside the model. -/
inductive CommitmentError
  | InvalidComputeCommitment
  | InvalidCommitment
  | InvalidProof
  | SerializationError
  | ProofVerificationFailed
  | BatchVerifyError
  deriving DecidableEq, Repr

/-- `SignatureError` (src/errors.rs lines 28-61). -/
inductive SignatureError
  | SerializationError
  | CommitmentError (e : CommitmentError)
  | InvalidShare (i : ℕ)
  | DuplicateShare (i : ℕ)
  | ThresholdNotMet
  | InsufficientShares (needed got : ℕ)
  | ProofError (s : String)
  | UserError (s : String)
  | SignatureVerificationFailed
  | CommitmentConsistencyFailed
  | InvalidState (s : String)
  deriving DecidableEq, Repr

/-- `CredentialError` (src/errors.rs lines 82-91). -/
inductive CredentialError
  | MissingSignature (s : String)
  | ProofGenerationFailed (e : CommitmentError)
  | RandomizationFailed (s : String)
  | InvalidState (s : String)
  deriving DecidableEq, Repr

/-! ## symmetric_commitment.rs -/

/-- `SymmetricCommitmentKey` (src/symmetric_commitment.rs lines 20-26). -/
structure SymmetricCommitmentKey (F : Type) where
  g : F
  ck : List F
  g_tilde : F
  ck_tilde : List F
  deriving DecidableEq, Repr

/-- `SymmetricCommitmentKey::new` (src/symmetric_commitment.rs lines 30-53);
the randomly drawn generators `g`, `g_tilde` are explicit arguments. -/
def SymmetricCommitmentKey.new (y_values : List F) (g g_tilde : F) :
    SymmetricCommitmentKey F :=
  { g := g
    ck := y_values.map (fun y_k => y_k * g)
    g_tilde := g_tilde
    ck_tilde := y_values.map (fun y_k => y_k * g_tilde) }

/-- `SymmetricCommitmentKey::get_bases` (`.0`, the `G1` side; lines 56-64). -/
def SymmetricCommitmentKey.get_bases (ck : SymmetricCommitmentKey F) : List F :=
  ck.ck ++ [ck.g]

/-- `g1_commit` (src/symmetric_commitment.rs lines 163-174): slice the key to
the message count (the source asserts `messages.len() <= ck.ck.len()`), then
`msm_unchecked` plus `g * r`. -/
def g1_commit (ck : SymmetricCommitmentKey F) (messages : List F) (r : F) : F :=
  msm (ck.ck.take messages.length) messages + r * ck.g

/-- `g2_commit` (src/symmetric_commitment.rs lines 176-190). -/
def g2_commit (ck : SymmetricCommitmentKey F) (messages : List F) (r : F) : F :=
  msm (ck.ck_tilde.take messages.length) messages + r * ck.g_tilde

/-- `SymmetricCommitment` (src/symmetric_commitment.rs lines 12-18). -/
structure SymmetricCommitment (F : Type) where
  ck : SymmetricCommitmentKey F
  messages : List F
  r : F
  cm : F
  cm_tilde : F
  deriving DecidableEq, Repr

/-- `SymmetricCommitment::new` (src/symmetric_commitment.rs lines 69-87). -/
def SymmetricCommitment.new (ck : SymmetricCommitmentKey F) (messages : List F)
    (r : F) : SymmetricCommitment F :=
  { ck := ck
    messages := messages
    r := r
    cm := g1_commit ck messages r
    cm_tilde := g2_commit ck messages r }

/-- `SymmetricCommitment::randomize` (src/symmetric_commitment.rs lines 89-101). -/
def SymmetricCommitment.randomize (c : SymmetricCommitment F) (r_delta : F) :
    SymmetricCommitment F :=
  { ck := c.ck
    messages := c.messages
    r := c.r + r_delta
    cm := c.cm + r_delta * c.ck.g
    cm_tilde := c.cm_tilde + r_delta * c.ck.g_tilde }

/-- `SymmetricCommitment::get_exponents` (src/symmetric_commitment.rs
lines 117-121). -/
def SymmetricCommitment.get_exponents (c : SymmetricCommitment F) : List F :=
  c.messages ++ [c.r]

/-! ## commitment.rs and schnorr.rs -/

/-- `CommitmentProof` (src/commitment.rs lines 18-24), the deserialized form
of the byte buffers produced by `prove` and consumed by the verifiers. -/
structure CommitmentProof (F : Type) where
  commitment : F
  schnorr_commitment : F
  bases : List F
  challenge : F
  responses : List F
  deriving DecidableEq, Repr

/-- `SchnorrProtocol::commit` (src/schnorr.rs lines 20-36): the commitment to
the randomly drawn blindings is their MSM against the bases. -/
def SchnorrProtocol.commit (public_generators : List F) (random_blindings : List F) : F :=
  msm public_generators random_blindings

/-- `SchnorrProtocol::prove` (src/schnorr.rs lines 76-89):
`z_i = rho_i + challenge * w_i`. -/
def SchnorrProtocol.prove (random_blindings : List F) (witnesses : List F)
    (challenge : F) : List F :=
  List.zipWith (fun b w => b + w * challenge) random_blindings witnesses

/-- `SchnorrProtocol::verify_schnorr` (src/schnorr.rs lines 108-120). -/
def SchnorrProtocol.verify_schnorr (public_generators : List F) (statement : F)
    (schnorr_commitment : F) (schnorr_responses : List F) (challenge : F) : Bool :=
  decide (msm public_generators schnorr_responses = schnorr_commitment + challenge * statement)

/-- `SymmetricCommitment::prove` (src/symmetric_commitment.rs lines 123-141).
The Schnorr blindings and the challenge drawn from the RNG are explicit
arguments; the serialized buffer is modelled by the proof structure itself
(`serialize_compressed` of well-formed data does not fail). -/
def SymmetricCommitment.prove (c : SymmetricCommitment F)
    (random_blindings : List F) (challenge : F) : CommitmentProof F :=
  let bases := c.ck.get_bases
  let schnorr_commitment := SchnorrProtocol.commit bases random_blindings
  let responses := SchnorrProtocol.prove random_blindings c.get_exponents challenge
  { commitment := c.cm
    schnorr_commitment := schnorr_commitment
    bases := bases
    challenge := challenge
    responses := responses }

/-! ## keygen.rs -/

/-- `SecretKeyShare` (src/keygen.rs lines 10-14). -/
structure SecretKeyShare (F : Type) where
  index : ℕ
  x_share : F
  y_shares : List F
  deriving DecidableEq, Repr

/-- `VerificationKey` (src/keygen.rs lines 25-27). -/
structure VerificationKey (F : Type) where
  g_tilde_x : F
  deriving DecidableEq, Repr

/-- `VerificationKeyShare` (src/keygen.rs lines 30-34). -/
structure VerificationKeyShare (F : Type) where
  index : ℕ
  g_tilde_x_share : F
  g_tilde_y_shares : List F
  deriving DecidableEq, Repr

/-- `ThresholdKeys` (src/keygen.rs lines 16-22). -/
structure ThresholdKeys (F : Type) where
  t : ℕ
  n : ℕ
  l : ℕ
  sk_shares : List (SecretKeyShare F)
  vk_shares : List (VerificationKeyShare F)
  deriving DecidableEq, Repr

/-- `keygen` (src/keygen.rs lines 36-112).  The random draws are explicit, in
sampling order: the master secret `x`, its Shamir coefficients `xcs`, the `l`
attribute keys `ys` with their coefficient lists `ycs`, and the generators
`g`, `g_tilde`. -/
def keygen (t n l : ℕ) (x : F) (xcs : List F) (ys : List F) (ycs : List (List F))
    (g g_tilde : F) :
    SymmetricCommitmentKey F × VerificationKey F × ThresholdKeys F :=
  let x_shares := generate_shares x t n xcs
  let y_values := ys.take l
  let y_shares_by_k := (List.range l).map
    (fun k => generate_shares (ys.getD k 0) t n (ycs.getD k []))
  let ck := SymmetricCommitmentKey.new y_values g g_tilde
  let vk : VerificationKey F := { g_tilde_x := x * ck.g_tilde }
  let sk_shares := (List.range n).map (fun i =>
    { index := (x_shares.getD i (0, 0)).1
      x_share := (x_shares.getD i (0, 0)).2
      y_shares := (List.range l).map
        (fun k => ((y_shares_by_k.getD k []).getD i (0, 0)).2) : SecretKeyShare F })
  let vk_shares := (List.range n).map (fun i =>
    { index := (x_shares.getD i (0, 0)).1
      g_tilde_x_share := (x_shares.getD i (0, 0)).2 * ck.g_tilde
      g_tilde_y_shares := (List.range l).map
        (fun k => ((y_shares_by_k.getD k []).getD i (0, 0)).2 * ck.g_tilde) :
      VerificationKeyShare F })
  (ck, vk, { t := t, n := n, l := l, sk_shares := sk_shares, vk_shares := vk_shares })

/-! ## pairing.rs

In the exponent model the target group `GT` is written additively: the
Miller-loop product becomes a sum of products of exponents,
`TargetField::one()` becomes `0`, `out.pow(coeff)` becomes `coeff * out`,
and `final_exponentiation` is the identity. -/

/-- `PairingCheck` (src/pairing.rs lines 24-31). -/
structure PairingCheck (F : Type) where
  left : F
  right : F
  non_randomized : ℕ
  deriving DecidableEq, Repr

/-- `PairingCheck::new` (src/pairing.rs lines 37-44). -/
def PairingCheck.new : PairingCheck F :=
  { left := 0, right := 0, non_randomized := 0 }

/-- `PairingCheck::from_pair` (src/pairing.rs lines 62-71). -/
def PairingCheck.from_pair (result exp : F) : PairingCheck F :=
  { left := result, right := exp, non_randomized := 1 }

/-- `PairingCheck::from_products` (src/pairing.rs lines 81-92): fold the left
sides together (multiplicatively in `GT`, additively in the exponent model)
then defer to `from_pair`. -/
def PairingCheck.from_products (lefts : List F) (right : F) : PairingCheck F :=
  PairingCheck.from_pair lefts.sum right

/-- `PairingCheck::rand` (src/pairing.rs lines 102-128).  The nonzero scalar
drawn by `rand_fr` is the explicit argument `coeff`; every `G1` element is
scaled by it, the Miller products are accumulated, and the right side is
raised to `coeff` unless it is the identity (`1^r = 1` shortcut at
lines 118-122). -/
def PairingCheck.rand (coeff : F) (it : List (F × F)) (out : F) : PairingCheck F :=
  { left := (it.map (fun p => (coeff * p.1) * p.2)).sum
    right := if out = 0 then out else coeff * out
    non_randomized := 0 }

/-- `mul_if_not_one` (src/pairing.rs lines 165-178) in the exponent model. -/
def mul_if_not_one (left right : F) : F :=
  if left = 0 then right else if right = 0 then left else left + right

/-- `PairingCheck::merge` (src/pairing.rs lines 132-137): combine both sides
and add the non-randomized counters. -/
def PairingCheck.merge (p : PairingCheck F) (p2 : PairingCheck F) : PairingCheck F :=
  { left := mul_if_not_one p.left p2.left
    right := mul_if_not_one p.right p2.right
    non_randomized := p.non_randomized + p2.non_randomized }

/-- `PairingCheck::verify` (src/pairing.rs lines 144-153): reject outright
when more than one non-randomized check was merged, otherwise compare the
final exponentiation of the left side with the right side. -/
def PairingCheck.verify (p : PairingCheck F) : Bool :=
  if p.non_randomized > 1 then false else decide (p.left = p.right)

theorem mul_if_not_one_eq_add (a b : F) : mul_if_not_one a b = a + b := by
  rw [mul_if_not_one]
  split_ifs with h1 h2
  · rw [h1, zero_add]
  · rw [h2, add_zero]
  · rfl

/-! ## signature.rs -/

/-- `PartialSignature` (src/signature.rs lines 15-20). -/
structure PartialSignature (F : Type) where
  party_index : ℕ
  h : F
  sigma : F
  deriving DecidableEq, Repr

/-- `ThresholdSignature` (src/signature.rs lines 22-26). -/
structure ThresholdSignature (F : Type) where
  h : F
  sigma : F
  deriving DecidableEq, Repr

/-- `compute_lagrange_coefficient` (src/signature.rs lines 181-198): product
over every index in `indices` other than `j` (skipping by *value*) of
`(0 - i) / (j - i)`. -/
def compute_lagrange_coefficient (indices : List ℕ) (j : ℕ) : F :=
  indices.foldl
    (fun result i =>
      if i = j then result
      else result * ((0 - (i : F)) * ((j : F) - (i : F))⁻¹))
    1

/-- `ThresholdSignature::aggregate_signature_shares` (src/signature.rs
lines 64-108): error on fewer than `threshold` shares; otherwise collect
*all* party indices, sum the first `threshold` shares weighted by Lagrange
coefficients computed over that full index list, subtract
`msm(ck.ck, blindings)`, and pair with `h`. -/
def ThresholdSignature.aggregate_signature_shares (ck : SymmetricCommitmentKey F)
    (signature_shares : List (ℕ × PartialSignature F)) (blindings : List F)
    (threshold : ℕ) (h : F) :
    Except SignatureError (ThresholdSignature F) :=
  if signature_shares.length < threshold then
    .error (.InsufficientShares threshold signature_shares.length)
  else
    let indices := signature_shares.map (fun pr => pr.2.party_index)
    let sigma_2 := ((signature_shares.take threshold).map
      (fun pr => compute_lagrange_coefficient indices pr.2.party_index * pr.2.sigma)).sum
    let g_k_r_k := -(msm ck.ck blindings)
    .ok { h := h, sigma := sigma_2 + g_k_r_k }

/-- `ThresholdSignature::randomize_with_factors` (src/signature.rs
lines 117-134): `h' = u * h`, `sigma' = u * (r * h + sigma)`. -/
def ThresholdSignature.randomize_with_factors (s : ThresholdSignature F)
    (u_delta r_delta : F) : ThresholdSignature F :=
  { h := u_delta * s.h
    sigma := u_delta * (r_delta * s.h + s.sigma) }

/-- `ThresholdSignature::verify` (src/signature.rs lines 138-178).  The two
nonzero scalars drawn by the two `PairingCheck::rand` calls are the explicit
arguments `α1`, `α2`.  Note the `serialized_proof` argument: the source
accepts it but never reads it. -/
def ThresholdSignature.verify (ck : SymmetricCommitmentKey F)
    (vk : VerificationKey F) (cm : F) (cm_tilde : F) (sig : ThresholdSignature F)
    (serialized_proof : CommitmentProof F) (α1 α2 : F) :
    Except SignatureError Bool :=
  let vk_plus_cm_tilde := vk.g_tilde_x + cm_tilde
  let check1 := PairingCheck.rand α1
    [(sig.sigma, ck.g_tilde), (-sig.h, vk_plus_cm_tilde)] 0
  let check2 := PairingCheck.rand α2
    [(cm, ck.g_tilde), (-ck.g, cm_tilde)] 0
  let final_check := (PairingCheck.new.merge check1).merge check2
  if final_check.verify then .ok true
  else .error .SignatureVerificationFailed

/-! ## commitment.rs batch verification -/

/-- `batch_verify` (src/commitment.rs lines 85-145; src/schnorr_batch.rs
lines 13-73 is the identical function).  The random scalar vector, sampled
with exactly one entry per deserialized proof, is the oracle `rand : i ↦ α_i`.
The source indexes `proof.responses[base_idx]` for every `base_idx` below
`proof.bases.len()`; an index past the end of `responses` is an
out-of-bounds panic, modelled by `none`. -/
def batch_verify (proofs : List (CommitmentProof F)) (rand : ℕ → F) : Option Bool :=
  if proofs = [] then some true
  else
    match proofs.enum.mapM (fun pr =>
        (List.range pr.2.bases.length).mapM
          (fun base_idx => (pr.2.responses.get? base_idx).map
            (fun z => z * rand pr.1))) with
    | none => none
    | some scalar_blocks =>
      let all_bases := (proofs.map (fun p => p.bases)).join
      let all_scalars := scalar_blocks.join
      let lhs := msm all_bases all_scalars
      let rhs_bases := (proofs.map (fun p => [p.schnorr_commitment, p.commitment])).join
      let rhs_scalars := (proofs.enum.map
        (fun pr => [rand pr.1, rand pr.1 * pr.2.challenge])).join
      let rhs := msm rhs_bases rhs_scalars
      some (decide (lhs = rhs))

/-! ## signer.rs -/

/-- `Signer` (src/signer.rs lines 12-16): references to the commitment key
and this party's key shares. -/
structure Signer (F : Type) where
  ck : SymmetricCommitmentKey F
  sk_share : SecretKeyShare F
  vk_share : VerificationKeyShare F

/-- The partial-signature computation shared by `Signer::sign_share` and
`Signer::sign_share_no_zkp_verify` (src/signer.rs lines 55-73):
`sigma = x_i * h + sum over k < y_shares.len of y_shares[k] * cm_k`. -/
def Signer.sign_share_sigma (sk_share : SecretKeyShare F) (commitments : List F)
    (h : F) : PartialSignature F :=
  { party_index := sk_share.index
    h := h
    sigma := sk_share.x_share * h +
      (commitments.enum.map (fun pr =>
        if pr.1 < sk_share.y_shares.length then sk_share.y_shares.getD pr.1 0 * pr.2
        else 0)).sum }

/-- `Signer::sign_share` (src/signer.rs lines 33-74): batch-verify the
commitment proofs (propagating its panic as `none`), fail on an invalid
batch, otherwise emit the partial signature. -/
def Signer.sign_share (s : Signer F) (commitments : List F)
    (commitment_proofs : List (CommitmentProof F)) (h : F) (rand : ℕ → F) :
    Option (Except SignatureError (PartialSignature F)) :=
  match batch_verify commitment_proofs rand with
  | none => none
  | some false => some (.error (.CommitmentError .BatchVerifyError))
  | some true => some (.ok (Signer.sign_share_sigma s.sk_share commitments h))

/-! ## credential.rs -/

/-- `CredentialState` (src/credential.rs lines 14-20). -/
inductive CredentialState
  | Initialized
  | Committed
  | Signed
  | Randomized
  deriving DecidableEq, Repr

/-- `CredentialCommitments` (src/credential.rs lines 22-26). -/
structure CredentialCommitments (F : Type) where
  h : F
  commitments : List F
  proofs : List (CommitmentProof F)
  deriving DecidableEq, Repr

/-- `Credential` (src/credential.rs lines 28-38). -/
structure Credential (F : Type) where
  ck : SymmetricCommitmentKey F
  cm : SymmetricCommitment F
  messages : List F
  blindings : List F
  h : F
  sig : Option (ThresholdSignature F)
  context : F
  state : CredentialState
  metadata : Option String

/-- `Credential::new` (src/credential.rs lines 41-70).  The random draws are
explicit: `rand_messages` (used when no messages are supplied; the source
samples `ck.ck.len()` of them), the shared base `h`, and the `context`. -/
def Credential.new (ck : SymmetricCommitmentKey F) (messages : Option (List F))
    (rand_messages : List F) (h : F) (context : F) : Credential F :=
  let msgs := match messages with
    | some ms => ms
    | none => rand_messages.take ck.ck.length
  { ck := ck
    cm := SymmetricCommitment.new ck msgs 0
    messages := msgs
    blindings := []
    h := h
    sig := none
    context := context
    state := .Initialized
    metadata := none }

/-- `Credential::set_attributes` (src/credential.rs lines 72-74). -/
def Credential.set_attributes (c : Credential F) (messages : List F) : Credential F :=
  { c with messages := messages }

/-- `Credential::set_symmetric_commitment` (src/credential.rs lines 77-81). -/
def Credential.set_symmetric_commitment (c : Credential F) : Credential F :=
  { c with cm := SymmetricCommitment.new c.ck c.messages 0 }

/-- `Commitment::prove` (src/commitment.rs lines 50-66) for the per-attribute
opening proof over bases `[h, g]` with exponents `[m, r]`; the Schnorr
blindings and the challenge are explicit. -/
def commitment_prove (bases : List F) (exponents : List F) (cm : F)
    (random_blindings : List F) (challenge : F) : CommitmentProof F :=
  { commitment := cm
    schnorr_commitment := SchnorrProtocol.commit bases random_blindings
    bases := bases
    challenge := challenge
    responses := SchnorrProtocol.prove random_blindings exponents challenge }

/-- `Credential::compute_commitments_per_m` (src/credential.rs lines 93-187,
sequential path): reject an empty message vector, otherwise draw one blinding
per message (`blindings` argument, stored on the credential together with the
`Committed` state), form `cm_i = m_i * h + r_i * g`, and prove each opening
over bases `[h, g]` (per-proof Schnorr randomness in `proof_rands`). -/
def Credential.compute_commitments_per_m (c : Credential F) (blindings : List F)
    (proof_rands : List (List F × F)) :
    Credential F × Except CommitmentError (CredentialCommitments F) :=
  if c.messages = [] then (c, .error .InvalidComputeCommitment)
  else
    let c' := { c with blindings := blindings, state := CredentialState.Committed }
    let commitments := List.zipWith (fun m r => m * c.h + r * c.ck.g) c.messages blindings
    let proofs := (List.range c.messages.length).map (fun i =>
      commitment_prove [c.h, c.ck.g] [c.messages.getD i 0, blindings.getD i 0]
        (commitments.getD i 0) (proof_rands.getD i ([], 0)).1 (proof_rands.getD i ([], 0)).2)
    (c', .ok { h := c.h, commitments := commitments, proofs := proofs })

/-- `Credential::attach_signature` (src/credential.rs lines 232-235). -/
def Credential.attach_signature (c : Credential F) (sig : ThresholdSignature F) :
    Credential F :=
  { c with state := CredentialState.Signed, sig := some sig }

/-- `Credential::with_metadata` (src/credential.rs lines 266-269). -/
def Credential.with_metadata (c : Credential F) (metadata : String) : Credential F :=
  { c with metadata := some metadata }

/-- `Credential::show` (src/credential.rs lines 238-263), on a shared `&self`
receiver (the credential itself is not written to).  Errors when the state
is not `Signed`; `self.sig.as_ref().unwrap()` on a missing signature is a
panic, modelled by `none`.  Randomize the signature with the drawn
`(u_delta, r_delta)`, randomize the commitment with the same `r_delta`, and
prove the opening of the randomized commitment (Schnorr randomness
`proof_blindings`, `challenge`). -/
def Credential.showCredential (c : Credential F) (u_delta r_delta : F)
    (proof_blindings : List F) (challenge : F) :
    Option (Except CredentialError (ThresholdSignature F × F × F × CommitmentProof F)) :=
  if c.state ≠ CredentialState.Signed then
    some (.error (.InvalidState ("Credential must be signed before showing")))
  else
    match c.sig with
    | none => none
    | some sig =>
      let randomized_sig := sig.randomize_with_factors u_delta r_delta
      let rand_sym_cm := c.cm.randomize r_delta
      let proof := rand_sym_cm.prove proof_blindings challenge
      some (.ok (randomized_sig, rand_sym_cm.cm, rand_sym_cm.cm_tilde, proof))

/-! ## protocol.rs -/

/-- `VerifierProtocol::verify` (src/protocol.rs lines 168-187): a direct
delegation to `ThresholdSignature::verify`. -/
def VerifierProtocol.verify (commitment_key : SymmetricCommitmentKey F)
    (verification_key : VerificationKey F) (commitment : F) (commitment_tilde : F)
    (signature : ThresholdSignature F) (proof : CommitmentProof F) (α1 α2 : F) :
    Except SignatureError Bool :=
  ThresholdSignature.verify commitment_key verification_key commitment
    commitment_tilde signature proof α1 α2

/-! ## nullifier.rs -/

/-- `DYPFPrivVRFWitness` (src/nullifier.rs lines 36-42). -/
structure DYPFPrivVRFWitness (F : Type) where
  sk : F
  r_sk : F
  x : F
  r_x : F
  deriving DecidableEq, Repr

/-- `DYPFPrivVRFOutput` (src/nullifier.rs lines 59-62). -/
structure DYPFPrivVRFOutput (F : Type) where
  y : F
  deriving DecidableEq, Repr

/-- `DYPFPrivVRFPublicParams` (src/nullifier.rs lines 77-82). -/
structure DYPFPrivVRFPublicParams (F : Type) where
  g : F
  g1 : F
  g2 : F
  deriving DecidableEq, Repr

/-- Arkworks `Field::inverse`: `None` exactly on zero. -/
def fieldInverse (a : F) : Option F :=
  if a = 0 then none else some a⁻¹

/-- `DYPFPrivVRF::evaluate` (src/nullifier.rs lines 147-158):
`(sk + x).inverse().ok_or("sk + x is zero")`, then `y = g * (sk+x)⁻¹`. -/
def DYPFPrivVRF.evaluate (pp : DYPFPrivVRFPublicParams F)
    (witness : DYPFPrivVRFWitness F) :
    Except String (DYPFPrivVRFOutput F) :=
  match fieldInverse (witness.sk + witness.x) with
  | none => .error ("sk + x is zero")
  | some exponent => .ok { y := exponent * pp.g }

/-! ## Theorems for the claims -/

theorem foldl_merge_rand_counter (contribs : List (F × List (F × F) × F))
    (acc : PairingCheck F) :
    (contribs.foldl (fun a c => a.merge (PairingCheck.rand c.1 c.2.1 c.2.2))
      acc).non_randomized = acc.non_randomized := by
  induction contribs generalizing acc with
  | nil => rfl
  | cons c cs ih =>
      rw [List.foldl_cons, ih]
      rfl

/-- C7: a `PairingCheck` built by `from_pair` or `from_products` carries one
non-randomized contribution, so merging any two of them makes `verify`
return `false` whatever the accumulated pairing values are; checks built by
`rand` contribute zero to the counter, so a merge of any number of them is
never rejected by the counter: its `verify` is exactly the final-exponent
comparison. -/
theorem pairing_check_non_randomized_policy :
    (∀ l1 r1 l2 r2 : F,
      ((PairingCheck.from_pair l1 r1).merge (PairingCheck.from_pair l2 r2)).verify = false) ∧
    (∀ (ls1 : List F) (r1 l2 r2 : F),
      ((PairingCheck.from_products ls1 r1).merge
        (PairingCheck.from_pair l2 r2)).verify = false) ∧
    (∀ (l1 r1 : F) (ls2 : List F) (r2 : F),
      ((PairingCheck.from_pair l1 r1).merge
        (PairingCheck.from_products ls2 r2)).verify = false) ∧
    (∀ (ls1 : List F) (r1 : F) (ls2 : List F) (r2 : F),
      ((PairingCheck.from_products ls1 r1).merge
        (PairingCheck.from_products ls2 r2)).verify = false) ∧
    (∀ contribs : List (F × List (F × F) × F),
      (contribs.foldl (fun a c => a.merge (PairingCheck.rand c.1 c.2.1 c.2.2))
        PairingCheck.new).non_randomized = 0 ∧
      (contribs.foldl (fun a c => a.merge (PairingCheck.rand c.1 c.2.1 c.2.2))
        PairingCheck.new).verify =
      decide ((contribs.foldl (fun a c => a.merge (PairingCheck.rand c.1 c.2.1 c.2.2))
          PairingCheck.new).left =
        (contribs.foldl (fun a c => a.merge (PairingCheck.rand c.1 c.2.1 c.2.2))
          PairingCheck.new).right)) := by
  refine ⟨?_, ?_, ?_, ?_, ?_⟩
  · intro l1 r1 l2 r2
    rfl
  · intro ls1 r1 l2 r2
    rfl
  · intro l1 r1 ls2 r2
    rfl
  · intro ls1 r1 ls2 r2
    rfl
  · intro contribs
    have hc := foldl_merge_rand_counter contribs (PairingCheck.new (F := F))
    refine ⟨hc, ?_⟩
    rw [PairingCheck.verify, hc]
    rfl

/-- C8: `DYPFPrivVRF::evaluate` returns an error exactly when `sk + x = 0`,
and otherwise returns `Ok` with `y = (sk + x)⁻¹ * g`, i.e. `g^(1/(sk+x))`. -/
theorem vrf_evaluate_raises_iff (pp : DYPFPrivVRFPublicParams F)
    (w : DYPFPrivVRFWitness F) :
    (w.sk + w.x = 0 → DYPFPrivVRF.evaluate pp w = .error ("sk + x is zero")) ∧
    (w.sk + w.x ≠ 0 →
      DYPFPrivVRF.evaluate pp w = .ok { y := (w.sk + w.x)⁻¹ * pp.g }) := by
  constructor <;> intro hz <;> simp [DYPFPrivVRF.evaluate, fieldInverse, hz]

/-- Witness for C8 at `sk = 1, x = -1` (error) and `sk = 1, x = 1` (success). -/
theorem vrf_evaluate_raises_iff_witness :
    ((1 : ℚ) + (-1) = 0 ∧
      DYPFPrivVRF.evaluate (F := ℚ) ⟨3, 5, 7⟩ ⟨1, 0, -1, 0⟩ = .error ("sk + x is zero")) ∧
    ((1 : ℚ) + 1 ≠ 0 ∧
      DYPFPrivVRF.evaluate (F := ℚ) ⟨3, 5, 7⟩ ⟨1, 0, 1, 0⟩ =
        .ok { y := ((1 : ℚ) + 1)⁻¹ * 3 }) :=
  ⟨⟨by norm_num, (vrf_evaluate_raises_iff ⟨3, 5, 7⟩ ⟨1, 0, -1, 0⟩).1 (by norm_num)⟩,
   ⟨by norm_num, (vrf_evaluate_raises_iff ⟨3, 5, 7⟩ ⟨1, 0, 1, 0⟩).2 (by norm_num)⟩⟩

/-- C4 (divergence witness): with `t = 1` and two shares at distinct indices
`1` and `2` carrying the constant polynomial value `1`, the code sums only
the first share but computes its Lagrange coefficient over *both* indices
(`(0-2)/(1-2) = 2`), producing `sigma = 2`, whereas aggregating exactly the
first `t = 1` entries produces `sigma = 1`.  The two results differ, so
aggregation with extra shares is *not* the same as aggregating the first
`t` entries. -/
theorem aggregate_extra_shares_diverges :
    ThresholdSignature.aggregate_signature_shares (F := ℚ)
        { g := 1, ck := [], g_tilde := 1, ck_tilde := [] }
        [(1, { party_index := 1, h := 1, sigma := 1 }),
         (2, { party_index := 2, h := 1, sigma := 1 })] [] 1 1 =
      .ok { h := 1, sigma := 2 } ∧
    ThresholdSignature.aggregate_signature_shares (F := ℚ)
        { g := 1, ck := [], g_tilde := 1, ck_tilde := [] }
        [(1, { party_index := 1, h := 1, sigma := 1 })] [] 1 1 =
      .ok { h := 1, sigma := 1 } ∧
    ({ h := 1, sigma := 2 } : ThresholdSignature ℚ) ≠ { h := 1, sigma := 1 } := by
  refine ⟨?_, ?_, ?_⟩
  · rw [ThresholdSignature.aggregate_signature_shares]
    norm_num [compute_lagrange_coefficient, msm]
  · rw [ThresholdSignature.aggregate_signature_shares]
    norm_num [compute_lagrange_coefficient, msm]
  · intro hcontra
    have : (2 : ℚ) = 1 := congrArg ThresholdSignature.sigma hcontra
    norm_num at this

/-- C5 (divergence witness): two shares carrying the *same* party index `1`
at threshold `2` are accepted: `aggregate_signature_shares` returns `Ok`
(the Lagrange loop just skips equal indices by value), not a
`DuplicateShare` error. -/
theorem aggregate_duplicate_index_accepted :
    ThresholdSignature.aggregate_signature_shares (F := ℚ)
        { g := 1, ck := [], g_tilde := 1, ck_tilde := [] }
        [(1, { party_index := 1, h := 1, sigma := 1 }),
         (1, { party_index := 1, h := 1, sigma := 1 })] [] 2 1 =
      .ok { h := 1, sigma := 2 } := by
  rw [ThresholdSignature.aggregate_signature_shares]
  norm_num [compute_lagrange_coefficient, msm]

/-- C3 (divergence witness): `ThresholdSignature::verify` never reads its
`serialized_proof` argument, so its result is independent of the supplied
proof; concretely, a presentation whose two pairing equations hold is
accepted with `Ok(true)` even though the supplied proof fails the Schnorr
check against `C_rand`. -/
theorem verify_ignores_opening_proof :
    (∀ (ck : SymmetricCommitmentKey F) (vk : VerificationKey F) (cm cm_tilde : F)
      (sig : ThresholdSignature F) (p1 p2 : CommitmentProof F) (α1 α2 : F),
      ThresholdSignature.verify ck vk cm cm_tilde sig p1 α1 α2 =
        ThresholdSignature.verify ck vk cm cm_tilde sig p2 α1 α2) ∧
    (SchnorrProtocol.verify_schnorr (F := ℚ) [1] 1 0 [5] 1 = false ∧
      VerifierProtocol.verify (F := ℚ) { g := 1, ck := [1], g_tilde := 1, ck_tilde := [1] }
        { g_tilde_x := 1 } 1 1 { h := 1, sigma := 2 }
        { commitment := 1, schnorr_commitment := 0, bases := [1], challenge := 1,
          responses := [5] } 1 1 = .ok true) := by
  refine ⟨fun ck vk cm cm_tilde sig p1 p2 α1 α2 => rfl, ?_, ?_⟩
  · rw [SchnorrProtocol.verify_schnorr]
    norm_num [msm]
  · rw [VerifierProtocol.verify, ThresholdSignature.verify]
    norm_num [PairingCheck.rand, PairingCheck.new, PairingCheck.merge, PairingCheck.verify,
      mul_if_not_one, msm]

theorem mapM_option_isSome {α β : Type} (f : α → Option β) (l : List α)
    (h : ∀ a ∈ l, (f a).isSome) : (l.mapM f).isSome := by
  induction l with
  | nil => rfl
  | cons a l ih =>
      obtain ⟨b, hb⟩ := Option.isSome_iff_exists.mp (h a (List.mem_cons_self a l))
      obtain ⟨bs, hbs⟩ := Option.isSome_iff_exists.mp
        (ih (fun x hx => h x (List.mem_cons_of_mem a hx)))
      rw [List.mapM_cons, hb, hbs]
      rfl

/-- C9: `batch_verify` is not total on structurally well-formed deserialized
proofs: a `CommitmentProof` whose `responses` vector is shorter than its
`bases` vector (both are independently length-prefixed on the wire, so such
a proof deserializes fine) drives `proof.responses[base_idx]` out of bounds
-- a panic, `none` in the model -- instead of any `CommitmentError`.  The
panic is absent exactly under the precondition that every proof has at
least as many responses as bases. -/
theorem batch_verify_panics_on_short_responses :
    (batch_verify (F := ℚ)
        [{ commitment := 0, schnorr_commitment := 0, bases := [1], challenge := 0,
           responses := [] }] (fun _ => 1) = none) ∧
    (∀ (proofs : List (CommitmentProof F)) (rand : ℕ → F),
      (∀ p ∈ proofs, p.bases.length ≤ p.responses.length) →
      (batch_verify proofs rand).isSome) := by
  constructor
  · rfl
  · intro proofs rand hpre
    by_cases hnil : proofs = []
    · simp [batch_verify, hnil]
    · rw [batch_verify, if_neg hnil]
      have hs : (proofs.enum.mapM (fun pr : ℕ × CommitmentProof F =>
          (List.range pr.2.bases.length).mapM
            (fun base_idx => (pr.2.responses.get? base_idx).map
              (fun z => z * rand pr.1)))).isSome := by
        refine mapM_option_isSome _ _ ?_
        intro a ha
        refine mapM_option_isSome _ _ ?_
        intro j hj
        have hmem : a.2 ∈ proofs := by
          have := List.mem_enum_iff_getElem?.mp ha
          exact List.getElem?_mem this
        have hlt : j < a.2.responses.length :=
          lt_of_lt_of_le (List.mem_range.mp hj) (hpre _ hmem)
        simp [List.get?_eq_getElem?, List.getElem?_eq_getElem hlt]
      obtain ⟨v, hv⟩ := Option.isSome_iff_exists.mp hs
      rw [hv]
      rfl

/-- A well-formed concrete proof (one base, one response) for the C9 witness. -/
def c9_good_proof : CommitmentProof ℚ :=
  { commitment := 0, schnorr_commitment := 0, bases := [1], challenge := 0,
    responses := [2] }

/-- Witness for C9's totality half: a proof with as many responses as bases
is processed without the panic. -/
theorem batch_verify_panics_witness :
    (∀ p ∈ [c9_good_proof], p.bases.length ≤ p.responses.length) ∧
    (batch_verify [c9_good_proof] (fun _ => 1)).isSome :=
  ⟨by simp [c9_good_proof],
   batch_verify_panics_on_short_responses.2 _ _ (by simp [c9_good_proof])⟩

/-- C10: `Credential::show` takes `&self`, so it cannot write to the
credential: its embedding consumes the credential and returns only the
presentation, and on a `Signed` credential with a stored signature it
succeeds for *every* choice of randomness, with an output that is a pure
function of the unchanged credential -- so `show` can be repeated at will.
Moreover no library operation ever assigns the `Randomized` state: `new`
produces `Initialized`, `set_attributes` / `set_symmetric_commitment` /
`with_metadata` leave the state alone, `compute_commitments_per_m` assigns
at most `Committed`, and `attach_signature` assigns `Signed`. -/
theorem credential_show_never_mutates :
    (∀ (c : Credential F) (s : ThresholdSignature F) (u r2 : F) (bl : List F) (ch : F),
      c.state = CredentialState.Signed → c.sig = some s →
      Credential.showCredential c u r2 bl ch =
        some (.ok (s.randomize_with_factors u r2, (c.cm.randomize r2).cm,
          (c.cm.randomize r2).cm_tilde, (c.cm.randomize r2).prove bl ch))) ∧
    (∀ (ck : SymmetricCommitmentKey F) (ms : Option (List F)) (rm : List F) (h ctx : F),
      (Credential.new ck ms rm h ctx).state = CredentialState.Initialized) ∧
    (∀ (c : Credential F) (ms : List F), (c.set_attributes ms).state = c.state) ∧
    (∀ c : Credential F, c.set_symmetric_commitment.state = c.state) ∧
    (∀ (c : Credential F) (bl : List F) (prs : List (List F × F)),
      (c.compute_commitments_per_m bl prs).1.state = CredentialState.Committed ∨
      (c.compute_commitments_per_m bl prs).1.state = c.state) ∧
    (∀ (c : Credential F) (s : ThresholdSignature F),
      (c.attach_signature s).state = CredentialState.Signed) ∧
    (∀ (c : Credential F) (m : String), (c.with_metadata m).state = c.state) := by
  refine ⟨?_, fun ck ms rm h ctx => rfl, fun c ms => rfl, fun c => rfl, ?_,
    fun c s => rfl, fun c m => rfl⟩
  · intro c s u r2 bl ch hst hsig
    rw [Credential.showCredential, if_neg (by rw [hst]; exact fun hcontra => hcontra rfl),
      hsig]
  · intro c bl prs
    rw [Credential.compute_commitments_per_m]
    by_cases hnil : c.messages = []
    · rw [if_pos hnil]
      exact Or.inr rfl
    · rw [if_neg hnil]
      exact Or.inl rfl

/-- Concrete key, commitment and credential for the C10 and C2 witnesses. -/
def wit_ck : SymmetricCommitmentKey ℚ :=
  { g := 1, ck := [1], g_tilde := 1, ck_tilde := [1] }

def wit_cm : SymmetricCommitment ℚ := SymmetricCommitment.new wit_ck [1] 0

def wit_sig : ThresholdSignature ℚ := { h := 1, sigma := 2 }

def wit_cred : Credential ℚ :=
  { ck := wit_ck, cm := wit_cm, messages := [1], blindings := [], h := 1,
    sig := some wit_sig, context := 0, state := CredentialState.Signed,
    metadata := none }

/-- Witness for C10: the concrete `Signed` credential is shown successfully
(twice, with different randomness), and a state-changing operation on it
never reaches `Randomized`. -/
theorem credential_show_never_mutates_witness :
    (wit_cred.state = CredentialState.Signed ∧ wit_cred.sig = some wit_sig) ∧
    Credential.showCredential wit_cred 1 0 [] 0 =
      some (.ok (wit_sig.randomize_with_factors 1 0, (wit_cred.cm.randomize 0).cm,
        (wit_cred.cm.randomize 0).cm_tilde, (wit_cred.cm.randomize 0).prove [] 0)) ∧
    Credential.showCredential wit_cred 2 3 [5] 7 =
      some (.ok (wit_sig.randomize_with_factors 2 3, (wit_cred.cm.randomize 3).cm,
        (wit_cred.cm.randomize 3).cm_tilde, (wit_cred.cm.randomize 3).prove [5] 7)) :=
  ⟨⟨rfl, rfl⟩,
   credential_show_never_mutates.1 wit_cred wit_sig 1 0 [] 0 rfl rfl,
   credential_show_never_mutates.1 wit_cred wit_sig 2 3 [5] 7 rfl rfl⟩

/-- If the two bases lists are paired under the same scalars (the §3 key
invariant `ck_k = g^{y_k}`, `c̃k_k = g̃^{y_k}`), then the two truncated MSMs
against the same message vector are paired as well. -/
theorem msm_pair (ms : List F) (as bs : List F) (g G : F)
    (hlen1 : ms.length ≤ as.length) (hlen2 : ms.length ≤ bs.length)
    (hkey : ∀ k, k < ms.length → as.getD k 0 * G = g * bs.getD k 0) :
    msm (as.take ms.length) ms * G = g * msm (bs.take ms.length) ms := by
  induction ms generalizing as bs with
  | nil => simp [msm]
  | cons m ms ih =>
      cases as with
      | nil => simp at hlen1
      | cons a as =>
          cases bs with
          | nil => simp at hlen2
          | cons b bs =>
              have h0 : a * G = g * b := by
                have := hkey 0 (Nat.succ_pos _)
                simpa using this
              have hrec := ih as bs (by simpa using hlen1) (by simpa using hlen2)
                (fun k hk => by
                  have := hkey (k + 1) (Nat.succ_lt_succ hk)
                  simpa using this)
              simp only [msm, List.length_cons, List.take_succ_cons,
                List.zipWith_cons_cons, List.sum_cons] at hrec ⊢
              linear_combination m * h0 + hrec

/-- When both pairing equations of a presentation hold exactly, the
randomized two-check accumulator of `ThresholdSignature::verify` accepts
(for every choice of the two random scalars). -/
theorem pairing_verify_ok (ck : SymmetricCommitmentKey F) (vk : VerificationKey F)
    (cm cmt : F) (sig : ThresholdSignature F) (p : CommitmentProof F) (α1 α2 : F)
    (h1 : sig.sigma * ck.g_tilde = sig.h * (vk.g_tilde_x + cmt))
    (h2 : cm * ck.g_tilde = ck.g * cmt) :
    ThresholdSignature.verify ck vk cm cmt sig p α1 α2 = .ok true := by
  rw [ThresholdSignature.verify]
  have hver : ((PairingCheck.new.merge (PairingCheck.rand α1
      [(sig.sigma, ck.g_tilde), (-sig.h, vk.g_tilde_x + cmt)] 0)).merge
      (PairingCheck.rand α2 [(cm, ck.g_tilde), (-ck.g, cmt)] 0)).verify = true := by
    rw [PairingCheck.verify]
    simp only [PairingCheck.rand, PairingCheck.new, PairingCheck.merge,
      mul_if_not_one_eq_add, List.map_cons, List.map_nil, List.sum_cons, List.sum_nil]
    norm_num
    linear_combination α1 * h1 + α2 * h2
  rw [hver]
  rfl

/-- C2: Show/Verify round-trip.  For every credential in the `Signed` state
whose stored signature satisfies the PS pairing identity over its stored
symmetric commitment `C(messages, 0)` (with the §3 key invariant pairing
the two halves of the commitment key), `Credential::show` succeeds for
every choice of randomizers `(u, r')`, and `VerifierProtocol::verify`
(`ThresholdSignature::verify`) accepts its output with `Ok(true)`. -/
theorem show_verify_roundtrip (c : Credential F) (s : ThresholdSignature F)
    (vk : VerificationKey F)
    (hst : c.state = CredentialState.Signed)
    (hsig : c.sig = some s)
    (hcm : c.cm = SymmetricCommitment.new c.ck c.messages 0)
    (hlen1 : c.messages.length ≤ c.ck.ck.length)
    (hlen2 : c.messages.length ≤ c.ck.ck_tilde.length)
    (hkey : ∀ k, k < c.messages.length →
      c.ck.ck.getD k 0 * c.ck.g_tilde = c.ck.g * c.ck.ck_tilde.getD k 0)
    (hps : s.sigma * c.ck.g_tilde = s.h * (vk.g_tilde_x + c.cm.cm_tilde))
    (u r2 : F) (bl : List F) (ch : F) (α1 α2 : F) :
    ∃ pres : ThresholdSignature F × F × F × CommitmentProof F,
      Credential.showCredential c u r2 bl ch = some (.ok pres) ∧
      VerifierProtocol.verify c.ck vk pres.2.1 pres.2.2.1 pres.1 pres.2.2.2 α1 α2 =
        .ok true := by
  refine ⟨(s.randomize_with_factors u r2, (c.cm.randomize r2).cm,
    (c.cm.randomize r2).cm_tilde, (c.cm.randomize r2).prove bl ch), ?_, ?_⟩
  · rw [Credential.showCredential, if_neg (by rw [hst]; exact fun hcontra => hcontra rfl),
      hsig]
  · rw [VerifierProtocol.verify]
    apply pairing_verify_ok
    · show (s.randomize_with_factors u r2).sigma * c.ck.g_tilde =
        (s.randomize_with_factors u r2).h *
          (vk.g_tilde_x + (c.cm.randomize r2).cm_tilde)
      rw [hcm] at hps ⊢
      simp only [ThresholdSignature.randomize_with_factors, SymmetricCommitment.new,
        SymmetricCommitment.randomize] at hps ⊢
      linear_combination u * hps
    · show (c.cm.randomize r2).cm * c.ck.g_tilde = c.ck.g * (c.cm.randomize r2).cm_tilde
      rw [hcm]
      simp only [SymmetricCommitment.new, SymmetricCommitment.randomize, g1_commit, g2_commit]
      have hmm := msm_pair c.messages c.ck.ck c.ck.ck_tilde c.ck.g c.ck.g_tilde
        hlen1 hlen2 hkey
      linear_combination hmm

/-- Witness for C2 on the concrete credential `wit_cred`. -/
theorem show_verify_roundtrip_witness :
    (wit_sig.sigma * wit_cred.ck.g_tilde =
      wit_sig.h * (({ g_tilde_x := 1 } : VerificationKey ℚ).g_tilde_x +
        wit_cred.cm.cm_tilde)) ∧
    (∃ pres : ThresholdSignature ℚ × ℚ × ℚ × CommitmentProof ℚ,
      Credential.showCredential wit_cred 1 0 [] 0 = some (.ok pres) ∧
      VerifierProtocol.verify wit_cred.ck { g_tilde_x := 1 } pres.2.1 pres.2.2.1
        pres.1 pres.2.2.2 1 1 = .ok true) := by
  constructor
  · norm_num [wit_sig, wit_cred, wit_cm, wit_ck, SymmetricCommitment.new, g2_commit, msm]
  · refine show_verify_roundtrip wit_cred wit_sig { g_tilde_x := 1 } rfl rfl rfl
      (by norm_num [wit_cred, wit_ck]) (by norm_num [wit_cred, wit_ck]) ?_ ?_ 1 0 [] 0 1 1
    · intro k hk
      have hk0 : k = 0 := Nat.lt_one_iff.mp (by simpa [wit_cred] using hk)
      subst hk0
      norm_num [wit_cred, wit_ck]
    · norm_num [wit_sig, wit_cred, wit_cm, wit_ck, SymmetricCommitment.new, g2_commit, msm]

/-! ## Helper lemmas for the end-to-end issuance claim -/

theorem list_range_map_sum (f : ℕ → F) (n : ℕ) :
    ((List.range n).map f).sum = ∑ i ∈ Finset.range n, f i := by
  rw [← List.sum_toFinset f (List.nodup_range n)]
  congr 1
  ext a
  simp

theorem sum_lagrange_range_eval_zero (t : ℕ) (v : ℕ → F)
    (hv : ∀ i j, i < t → j < t → v i = v j → i = j) (p : Polynomial F)
    (hdeg : p.degree < (t : ℕ)) :
    ∑ i ∈ Finset.range t, p.eval (v i) *
      ∏ j ∈ Finset.range t, (if i = j then 1 else (0 - v j) * (v i - v j)⁻¹) =
      p.eval 0 := by
  have hfin : Function.Injective (fun i : Fin t => v i.1) :=
    fun i j hij => Fin.ext (hv _ _ i.isLt j.isLt hij)
  have hmain := sum_lagrange_pos_eval_zero (fun i : Fin t => v i.1) hfin p hdeg
  rw [← hmain, ← Fin.sum_univ_eq_sum_range]
  refine Finset.sum_congr rfl fun i _ => ?_
  congr 1
  rw [← Fin.prod_univ_eq_prod_range]
  refine Finset.prod_congr rfl fun j _ => ?_
  by_cases hij : i = j
  · rw [if_pos (congrArg Fin.val hij), if_pos hij]
  · rw [if_neg (fun hc => hij (Fin.ext hc)), if_neg hij]

theorem foldl_skip_if (xs : List ℕ) (j : ℕ) (w : ℕ → F) (a : F) :
    xs.foldl (fun r i => if i = j then r else r * w i) a =
      a * (xs.map (fun i => if i = j then 1 else w i)).prod := by
  induction xs generalizing a with
  | nil => simp
  | cons i xs ih =>
      rw [List.foldl_cons, ih, List.map_cons, List.prod_cons]
      by_cases hij : i = j
      · rw [if_pos hij, if_pos hij, one_mul]
      · rw [if_neg hij, if_neg hij, mul_assoc]

theorem compute_lagrange_coefficient_range (t i0 : ℕ) :
    compute_lagrange_coefficient (F := F) ((List.range t).map (· + 1)) (i0 + 1) =
      ∏ j ∈ Finset.range t, (if i0 = j then 1
        else (0 - ((j + 1 : ℕ) : F)) * (((i0 + 1 : ℕ) : F) - ((j + 1 : ℕ) : F))⁻¹) := by
  rw [compute_lagrange_coefficient, foldl_skip_if, one_mul, List.map_map]
  rw [← List.prod_toFinset _ (List.nodup_range t)]
  have hfs : (List.range t).toFinset = Finset.range t := by
    ext a
    simp
  rw [hfs]
  refine Finset.prod_congr rfl fun j _ => ?_
  show (if j + 1 = i0 + 1 then 1
    else (0 - ((j + 1 : ℕ) : F)) * (((i0 + 1 : ℕ) : F) - ((j + 1 : ℕ) : F))⁻¹) = _
  by_cases hj : i0 = j
  · rw [if_pos (by omega), if_pos hj]
  · rw [if_neg (by omega), if_neg hj]

theorem getD_range_map {β : Type} (f : ℕ → β) (n i : ℕ) (hi : i < n) (d : β) :
    ((List.range n).map f).getD i d = f i := by
  rw [List.getD_eq_getElem?_getD]
  simp [List.getElem?_map, List.getElem?_range, hi]

theorem getD_zipWith_lt (f : F → F → F) (as bs : List F) (k : ℕ)
    (h1 : k < as.length) (h2 : k < bs.length) :
    (List.zipWith f as bs).getD k 0 = f (as.getD k 0) (bs.getD k 0) := by
  rw [List.getD_eq_getElem?_getD, List.getD_eq_getElem?_getD, List.getD_eq_getElem?_getD,
    List.getElem?_zipWith, List.getElem?_eq_getElem h1, List.getElem?_eq_getElem h2]
  rfl

theorem sum_enumFrom_map (c : List F) (g : ℕ × F → F) (s : ℕ) :
    ((c.enumFrom s).map g).sum = ∑ k ∈ Finset.range c.length, g (s + k, c.getD k 0) := by
  induction c generalizing s with
  | nil => simp
  | cons a c ih =>
      rw [List.enumFrom_cons, List.map_cons, List.sum_cons, ih (s + 1),
        List.length_cons, Finset.sum_range_succ', add_comm]
      congr 1
      · refine Finset.sum_congr rfl fun k _ => ?_
        rw [List.getD_cons_succ]
        have harg : s + 1 + k = s + (k + 1) := by omega
        rw [harg]

theorem sum_enum_map (c : List F) (g : ℕ × F → F) :
    (c.enum.map g).sum = ∑ k ∈ Finset.range c.length, g (k, c.getD k 0) := by
  have h := sum_enumFrom_map c g 0
  simp only [Nat.zero_add] at h
  exact h

theorem zipWith_sum_eq (f : F → F → F) (as bs : List F) (n : ℕ)
    (ha : as.length = n) (hb : bs.length = n) :
    (List.zipWith f as bs).sum = ∑ k ∈ Finset.range n, f (as.getD k 0) (bs.getD k 0) := by
  induction n generalizing as bs with
  | zero =>
      obtain rfl := List.length_eq_zero.mp ha
      obtain rfl := List.length_eq_zero.mp hb
      simp
  | succ n ih =>
      cases as with
      | nil => simp at ha
      | cons a as =>
          cases bs with
          | nil => simp at hb
          | cons b bs =>
              rw [List.zipWith_cons_cons, List.sum_cons,
                ih as bs (by simpa using ha) (by simpa using hb),
                Finset.sum_range_succ']
              simp only [List.getD_cons_succ, List.getD_cons_zero]
              rw [add_comm]

theorem getD_map_lt {α β : Type} (f : α → β) (as : List α) (k : ℕ) (hk : k < as.length)
    (d : α) (d2 : β) : (as.map f).getD k d2 = f (as.getD k d) := by
  rw [List.getD_eq_getElem?_getD, List.getD_eq_getElem?_getD, List.getElem?_map,
    List.getElem?_eq_getElem hk]
  rfl

/-- The Lagrange-coefficient form of the interpolation lemma, matching the
aggregation code: summing `compute_lagrange_coefficient` over the index list
`[1, ..., t]` against values of a polynomial of degree `< t` recovers
`p.eval 0`. -/
theorem sum_compute_lagrange_eval_zero (t n : ℕ) (htn : t ≤ n)
    (hcast : ∀ i j : ℕ, i ≤ n → j ≤ n → (i : F) = (j : F) → i = j)
    (p : Polynomial F) (hdeg : p.degree < (t : ℕ)) :
    ∑ i ∈ Finset.range t,
      compute_lagrange_coefficient ((List.range t).map (· + 1)) (i + 1) *
        p.eval ((i + 1 : ℕ) : F) = p.eval 0 := by
  have hv : ∀ i j, i < t → j < t → ((i + 1 : ℕ) : F) = ((j + 1 : ℕ) : F) → i = j := by
    intro i j hi hj hc
    have := hcast (i + 1) (j + 1) (by omega) (by omega) hc
    omega
  have hmain := sum_lagrange_range_eval_zero t (fun i => ((i + 1 : ℕ) : F)) hv p hdeg
  rw [← hmain]
  refine Finset.sum_congr rfl fun i _ => ?_
  rw [compute_lagrange_coefficient_range, mul_comm]

theorem generate_shares_eq (secret : F) (t n : ℕ) (coeffs : List F) :
    generate_shares secret t n coeffs = (List.range n).map
      (fun i => (i + 1, hornerEval (secret :: coeffs.take (t - 1)) ((i + 1 : ℕ) : F))) :=
  rfl

theorem generate_shares_getD (secret : F) (t n : ℕ) (coeffs : List F) (i : ℕ)
    (hi : i < n) (d : ℕ × F) :
    (generate_shares secret t n coeffs).getD i d =
      (i + 1, hornerEval (secret :: coeffs.take (t - 1)) ((i + 1 : ℕ) : F)) := by
  rw [generate_shares_eq, getD_range_map _ _ _ hi]

theorem keygen_ck (t n l : ℕ) (x : F) (xcs : List F) (ys : List F)
    (ycs : List (List F)) (g g_tilde : F) :
    (keygen t n l x xcs ys ycs g g_tilde).1 =
      SymmetricCommitmentKey.new (ys.take l) g g_tilde :=
  rfl

theorem keygen_vk (t n l : ℕ) (x : F) (xcs : List F) (ys : List F)
    (ycs : List (List F)) (g g_tilde : F) :
    (keygen t n l x xcs ys ycs g g_tilde).2.1 = { g_tilde_x := x * g_tilde } :=
  rfl

theorem keygen_sk_shares_getD (t n l : ℕ) (x : F) (xcs : List F) (ys : List F)
    (ycs : List (List F)) (g g_tilde : F) (i : ℕ) (hi : i < n) (d : SecretKeyShare F) :
    (keygen t n l x xcs ys ycs g g_tilde).2.2.sk_shares.getD i d =
      { index := i + 1
        x_share := hornerEval (x :: xcs.take (t - 1)) ((i + 1 : ℕ) : F)
        y_shares := (List.range l).map (fun k =>
          hornerEval ((ys.getD k 0) :: ((ycs.getD k []).take (t - 1)))
            ((i + 1 : ℕ) : F)) } := by
  show ((List.range n).map _).getD i d = _
  rw [getD_range_map _ _ _ hi]
  rw [generate_shares_getD _ _ _ _ _ hi]
  congr 1
  refine List.map_congr_left fun k hk => ?_
  have hkl : k < l := List.mem_range.mp hk
  rw [getD_range_map _ _ _ hkl, generate_shares_getD _ _ _ _ _ hi]

theorem sign_share_ok_eq (s : Signer F) (cms : List F)
    (proofs : List (CommitmentProof F)) (h : F) (rand : ℕ → F)
    (p : PartialSignature F)
    (hok : s.sign_share cms proofs h rand = some (.ok p)) :
    p = Signer.sign_share_sigma s.sk_share cms h := by
  rw [Signer.sign_share] at hok
  rcases hb : batch_verify proofs rand with _ | b
  · rw [hb] at hok
    cases hok
  · rw [hb] at hok
    cases b
    · simp at hok
    · injection hok with h1
      injection h1 with h2
      exact h2.symm

/-- C1: end-to-end issuance correctness.  After `keygen(t, n, l)` with
`1 ≤ t ≤ n`, `1 ≤ l` (indices `1..n` distinct as field elements), forming
the per-attribute commitments `cm_k = m_k * h + r_k * g`, letting each of
the first `t` signers produce its partial signature through
`Signer::sign_share`, and aggregating exactly those `t` shares with the
blindings `{r_k}`, the result is `(h, (x + Σ_k y_k m_k) * h)`, which
satisfies the PS pairing identity
`e(σ, g̃) = e(h, VK + C̃({m_k}, 0))`, i.e.
`σ * g̃ = h * (vk.g_tilde_x + g2_commit ck ms 0)` in the exponent model. -/
theorem end_to_end_issuance
    (t n l : ℕ) (ht : 1 ≤ t) (htn : t ≤ n) (hl : 1 ≤ l)
    (hcast : ∀ i j : ℕ, i ≤ n → j ≤ n → (i : F) = (j : F) → i = j)
    (x : F) (xcs : List F) (ys : List F) (hys : ys.length = l)
    (ycs : List (List F)) (g g_tilde : F)
    (ck : SymmetricCommitmentKey F) (vk : VerificationKey F) (tk : ThresholdKeys F)
    (hkg : keygen t n l x xcs ys ycs g g_tilde = (ck, vk, tk))
    (ms rs : List F) (hms : ms.length = l) (hrs : rs.length = l)
    (h : F) (cms : List F)
    (hcms : cms = List.zipWith (fun m r => m * h + r * ck.g) ms rs)
    (signers : ℕ → Signer F)
    (hsigner : ∀ i, i < t → (signers i).sk_share =
      tk.sk_shares.getD i { index := 0, x_share := 0, y_shares := [] })
    (proofs : List (CommitmentProof F)) (rand : ℕ → F)
    (ps : ℕ → PartialSignature F)
    (hsign : ∀ i, i < t →
      (signers i).sign_share cms proofs h rand = some (.ok (ps i)))
    (sig : ThresholdSignature F)
    (hagg : ThresholdSignature.aggregate_signature_shares ck
      ((List.range t).map (fun i => ((ps i).party_index, ps i))) rs t h = .ok sig) :
    sig.h = h ∧
    sig.sigma = (x + (List.zipWith (fun y m => y * m) ys ms).sum) * h ∧
    sig.sigma * g_tilde = sig.h * (vk.g_tilde_x + g2_commit ck ms 0) := by
  -- keygen components
  have htake : ys.take l = ys := by rw [← hys, List.take_length]
  have hck : ck = SymmetricCommitmentKey.new ys g g_tilde := by
    have h1 := congrArg Prod.fst hkg
    rw [keygen_ck, htake] at h1
    exact h1.symm
  have hvk : vk = { g_tilde_x := x * g_tilde } := by
    have h1 : (keygen t n l x xcs ys ycs g g_tilde).2.1 = vk := by rw [hkg]
    rw [keygen_vk] at h1
    exact h1.symm
  have hskl : ∀ i, i < t →
      tk.sk_shares.getD i { index := 0, x_share := 0, y_shares := [] } =
      { index := i + 1
        x_share := hornerEval (x :: xcs.take (t - 1)) ((i + 1 : ℕ) : F)
        y_shares := (List.range l).map (fun k =>
          hornerEval ((ys.getD k 0) :: ((ycs.getD k []).take (t - 1)))
            ((i + 1 : ℕ) : F)) } := by
    intro i hi
    have h1 : tk.sk_shares = (keygen t n l x xcs ys ycs g g_tilde).2.2.sk_shares := by
      rw [hkg]
    rw [h1, keygen_sk_shares_getD _ _ _ _ _ _ _ _ _ _ (lt_of_lt_of_le hi htn)]
  -- the shared polynomials
  obtain ⟨px, hpxdeg, hpxeval, hpx0⟩ := exists_poly_of_coeffs (x :: xcs.take (t - 1))
  have hpxdeg' : px.degree < (t : ℕ) := by
    refine lt_of_lt_of_le hpxdeg ?_
    have hle : (x :: xcs.take (t - 1)).length ≤ t := by
      simp only [List.length_cons, List.length_take]
      omega
    exact_mod_cast hle
  have hpyall := fun k => exists_poly_of_coeffs ((ys.getD k 0) :: ((ycs.getD k []).take (t - 1)))
  choose py hpydeg hpyeval hpy0 using hpyall
  have hpydeg' : ∀ k, (py k).degree < (t : ℕ) := by
    intro k
    refine lt_of_lt_of_le (hpydeg k) ?_
    have hle : ((ys.getD k 0) :: ((ycs.getD k []).take (t - 1))).length ≤ t := by
      simp only [List.length_cons, List.length_take]
      omega
    exact_mod_cast hle
  -- the partial signatures
  have hcmslen : cms.length = l := by
    rw [hcms, List.length_zipWith, hms, hrs, Nat.min_self]
  have hps : ∀ i, i < t → ps i = Signer.sign_share_sigma
      { index := i + 1
        x_share := hornerEval (x :: xcs.take (t - 1)) ((i + 1 : ℕ) : F)
        y_shares := (List.range l).map (fun k =>
          hornerEval ((ys.getD k 0) :: ((ycs.getD k []).take (t - 1)))
            ((i + 1 : ℕ) : F)) } cms h := by
    intro i hi
    have h1 := sign_share_ok_eq _ _ _ _ _ _ (hsign i hi)
    rw [hsigner i hi, hskl i hi] at h1
    exact h1
  have hps_idx : ∀ i, i < t → (ps i).party_index = i + 1 := by
    intro i hi
    rw [hps i hi]
    rfl
  have hps_sigma : ∀ i, i < t → (ps i).sigma =
      px.eval ((i + 1 : ℕ) : F) * h +
        ∑ k ∈ Finset.range l, (py k).eval ((i + 1 : ℕ) : F) * cms.getD k 0 := by
    intro i hi
    rw [hps i hi]
    simp only [Signer.sign_share_sigma]
    rw [hpxeval, sum_enum_map, hcmslen]
    congr 1
    refine Finset.sum_congr rfl fun k hk => ?_
    have hkl : k < l := Finset.mem_range.mp hk
    rw [if_pos (by simpa using hkl), getD_range_map _ _ _ hkl, hpyeval k]
  -- interpolation identities
  have hx : ∑ i ∈ Finset.range t,
      compute_lagrange_coefficient ((List.range t).map (· + 1)) (i + 1) *
        px.eval ((i + 1 : ℕ) : F) = x := by
    rw [sum_compute_lagrange_eval_zero t n htn hcast px hpxdeg', hpx0]
    rfl
  have hy : ∀ k, ∑ i ∈ Finset.range t,
      compute_lagrange_coefficient ((List.range t).map (· + 1)) (i + 1) *
        (py k).eval ((i + 1 : ℕ) : F) = ys.getD k 0 := by
    intro k
    rw [sum_compute_lagrange_eval_zero t n htn hcast (py k) (hpydeg' k), hpy0]
    rfl
  -- reduce the aggregation
  have hshlen : ((List.range t).map (fun i => ((ps i).party_index, ps i))).length = t := by
    simp
  have hfinal : ThresholdSignature.aggregate_signature_shares ck
      ((List.range t).map (fun i => ((ps i).party_index, ps i))) rs t h =
      .ok { h := h, sigma := (x + (List.zipWith (fun y m => y * m) ys ms).sum) * h } := by
    simp only [ThresholdSignature.aggregate_signature_shares]
    rw [if_neg (by rw [hshlen]; omega)]
    refine congrArg Except.ok (congrArg (ThresholdSignature.mk h) ?_)
    rw [List.take_of_length_le (le_of_eq hshlen)]
    have hidx : ((List.range t).map (fun i => ((ps i).party_index, ps i))).map
        (fun pr => pr.2.party_index) = (List.range t).map (· + 1) := by
      rw [List.map_map]
      refine List.map_congr_left fun i hi => ?_
      exact hps_idx i (List.mem_range.mp hi)
    rw [hidx, List.map_map, list_range_map_sum]
    simp only [Function.comp]
    have hmainsum : ∑ i ∈ Finset.range t,
        compute_lagrange_coefficient ((List.range t).map (· + 1)) ((ps i).party_index) *
          (ps i).sigma =
        ∑ i ∈ Finset.range t,
          compute_lagrange_coefficient ((List.range t).map (· + 1)) (i + 1) *
            (px.eval ((i + 1 : ℕ) : F) * h +
              ∑ k ∈ Finset.range l, (py k).eval ((i + 1 : ℕ) : F) * cms.getD k 0) := by
      refine Finset.sum_congr rfl fun i hi => ?_
      rw [hps_idx i (Finset.mem_range.mp hi), hps_sigma i (Finset.mem_range.mp hi)]
    rw [hmainsum]
    have hswap : ∑ i ∈ Finset.range t,
        compute_lagrange_coefficient ((List.range t).map (· + 1)) (i + 1) *
          (px.eval ((i + 1 : ℕ) : F) * h +
            ∑ k ∈ Finset.range l, (py k).eval ((i + 1 : ℕ) : F) * cms.getD k 0) =
        x * h + ∑ k ∈ Finset.range l, ys.getD k 0 * cms.getD k 0 := by
      calc ∑ i ∈ Finset.range t,
          compute_lagrange_coefficient ((List.range t).map (· + 1)) (i + 1) *
            (px.eval ((i + 1 : ℕ) : F) * h +
              ∑ k ∈ Finset.range l, (py k).eval ((i + 1 : ℕ) : F) * cms.getD k 0)
          = ∑ i ∈ Finset.range t,
            ((compute_lagrange_coefficient ((List.range t).map (· + 1)) (i + 1) *
              px.eval ((i + 1 : ℕ) : F)) * h +
              ∑ k ∈ Finset.range l,
                (compute_lagrange_coefficient ((List.range t).map (· + 1)) (i + 1) *
                  (py k).eval ((i + 1 : ℕ) : F)) * cms.getD k 0) := by
            refine Finset.sum_congr rfl fun i _ => ?_
            rw [mul_add, Finset.mul_sum]
            congr 1
            · ring
            · exact Finset.sum_congr rfl fun k _ => by ring
        _ = (∑ i ∈ Finset.range t,
              compute_lagrange_coefficient ((List.range t).map (· + 1)) (i + 1) *
                px.eval ((i + 1 : ℕ) : F)) * h +
            ∑ k ∈ Finset.range l,
              (∑ i ∈ Finset.range t,
                compute_lagrange_coefficient ((List.range t).map (· + 1)) (i + 1) *
                  (py k).eval ((i + 1 : ℕ) : F)) * cms.getD k 0 := by
            rw [Finset.sum_add_distrib, Finset.sum_mul, Finset.sum_comm]
            congr 1
            refine Finset.sum_congr rfl fun k _ => ?_
            rw [Finset.sum_mul]
        _ = x * h + ∑ k ∈ Finset.range l, ys.getD k 0 * cms.getD k 0 := by
            rw [hx]
            congr 1
            refine Finset.sum_congr rfl fun k _ => ?_
            rw [hy k]
    rw [hswap]
    have hckck : ck.ck = ys.map (fun y => y * g) := by rw [hck]; rfl
    have hckg : ck.g = g := by rw [hck]; rfl
    have hmsm : msm ck.ck rs =
        ∑ k ∈ Finset.range l, rs.getD k 0 * (ys.getD k 0 * g) := by
      rw [hckck]
      simp only [msm]
      rw [zipWith_sum_eq (fun b s => s * b) (ys.map (fun y => y * g)) rs l
        (by simp [hys]) hrs]
      refine Finset.sum_congr rfl fun k hk => ?_
      rw [getD_map_lt _ _ _ (by rw [hys]; exact Finset.mem_range.mp hk) 0 0]
    have hCsum : ∑ k ∈ Finset.range l, ys.getD k 0 * cms.getD k 0 =
        ∑ k ∈ Finset.range l, ys.getD k 0 * (ms.getD k 0 * h + rs.getD k 0 * g) := by
      refine Finset.sum_congr rfl fun k hk => ?_
      have hkl : k < l := Finset.mem_range.mp hk
      rw [hcms, getD_zipWith_lt _ _ _ _ (by rw [hms]; exact hkl) (by rw [hrs]; exact hkl),
        hckg]
    rw [hmsm, hCsum, zipWith_sum_eq (fun y m => y * m) ys ms l hys hms]
    have hsplit : ∑ k ∈ Finset.range l, ys.getD k 0 * (ms.getD k 0 * h + rs.getD k 0 * g) =
        (∑ k ∈ Finset.range l, ys.getD k 0 * ms.getD k 0) * h +
          ∑ k ∈ Finset.range l, rs.getD k 0 * (ys.getD k 0 * g) := by
      rw [Finset.sum_mul, ← Finset.sum_add_distrib]
      refine Finset.sum_congr rfl fun k _ => ?_
      ring
    rw [hsplit]
    ring
  rw [hfinal] at hagg
  injection hagg with hagg1
  have hh : sig.h = h := by rw [← hagg1]
  have hsigma : sig.sigma = (x + (List.zipWith (fun y m => y * m) ys ms).sum) * h := by
    rw [← hagg1]
  refine ⟨hh, hsigma, ?_⟩
  have hg2 : g2_commit ck ms 0 =
      ∑ k ∈ Finset.range l, ms.getD k 0 * (ys.getD k 0 * g_tilde) := by
    rw [g2_commit]
    have hcktl : ck.ck_tilde = ys.map (fun y => y * g_tilde) := by rw [hck]; rfl
    rw [hcktl]
    have htake2 : (ys.map (fun y => y * g_tilde)).take ms.length =
        ys.map (fun y => y * g_tilde) := by
      apply List.take_of_length_le
      simp [hys, hms]
    rw [htake2]
    simp only [msm]
    rw [zipWith_sum_eq (fun b s => s * b) (ys.map (fun y => y * g_tilde)) ms l
      (by simp [hys]) hms, zero_mul, add_zero]
    refine Finset.sum_congr rfl fun k hk => ?_
    rw [getD_map_lt _ _ _ (by rw [hys]; exact Finset.mem_range.mp hk) 0 0]
  rw [hsigma, hh, hvk, hg2, zipWith_sum_eq (fun y m => y * m) ys ms l hys hms]
  have hpull : ∑ k ∈ Finset.range l, ms.getD k 0 * (ys.getD k 0 * g_tilde) =
      (∑ k ∈ Finset.range l, ys.getD k 0 * ms.getD k 0) * g_tilde := by
    rw [Finset.sum_mul]
    exact Finset.sum_congr rfl fun k _ => by ring
  rw [hpull]
  ring

/-- Concrete data for the C1 witness: `t = n = l = 1` over `ℚ` with
`x = y_1 = 1`, generators `1`, message `1`, blinding `0`, `h = 1`. -/
def c1_ck : SymmetricCommitmentKey ℚ :=
  { g := 1, ck := [1], g_tilde := 1, ck_tilde := [1] }

def c1_tk : ThresholdKeys ℚ :=
  { t := 1, n := 1, l := 1,
    sk_shares := [{ index := 1, x_share := 1, y_shares := [1] }],
    vk_shares := [{ index := 1, g_tilde_x_share := 1, g_tilde_y_shares := [1] }] }

def c1_signer : Signer ℚ :=
  { ck := c1_ck, sk_share := { index := 1, x_share := 1, y_shares := [1] },
    vk_share := { index := 1, g_tilde_x_share := 1, g_tilde_y_shares := [1] } }

def c1_ps : PartialSignature ℚ := { party_index := 1, h := 1, sigma := 2 }

def c1_sig : ThresholdSignature ℚ := { h := 1, sigma := 2 }

/-- Witness for C1 at `t = n = l = 1`: the aggregated signature is
`(h, (x + y_1 m_1) * h) = (1, 2)` and satisfies the PS identity. -/
theorem end_to_end_issuance_witness :
    c1_sig.h = 1 ∧
    c1_sig.sigma = ((1 : ℚ) + (List.zipWith (fun y m => y * m) [1] [1]).sum) * 1 ∧
    c1_sig.sigma * 1 = c1_sig.h *
      (({ g_tilde_x := 1 } : VerificationKey ℚ).g_tilde_x + g2_commit c1_ck [1] 0) :=
  end_to_end_issuance 1 1 1 le_rfl le_rfl le_rfl
    (fun i j _ _ hc => Nat.cast_injective hc)
    1 [] [1] rfl [] 1 1 c1_ck { g_tilde_x := 1 } c1_tk
    (by
      norm_num [keygen, generate_shares, hornerEval, SymmetricCommitmentKey.new,
        c1_ck, c1_tk, List.range_succ])
    [1] [0] rfl rfl 1 [1]
    (by norm_num [c1_ck])
    (fun _ => c1_signer)
    (by
      intro i hi
      obtain rfl : i = 0 := by omega
      rfl)
    [] (fun _ => 0) (fun _ => c1_ps)
    (by
      intro i hi
      norm_num [Signer.sign_share, batch_verify, Signer.sign_share_sigma,
        c1_signer, c1_ps])
    c1_sig
    (by
      norm_num [ThresholdSignature.aggregate_signature_shares,
        compute_lagrange_coefficient, msm, c1_ck, c1_ps, c1_sig])

/-- The `{1, 3}`-subset of the shares of `7` under `f(X) = 7 + X`,
`(t, n) = (2, 3)`, for the C6 witness. -/
def c6_sub : List (ℕ × ℚ) := [(1, 8), (3, 10)]

/-- Witness for C6: reconstructing from the `{1, 3}`-subset of the shares of
the secret `7` under the polynomial `7 + X` returns `7`. -/
theorem shamir_correctness_witness :
    (generate_shares (7 : ℚ) 2 3 [1] = [(1, 8), (2, 9), (3, 10)] ∧
      c6_sub.Sublist [(1, 8), (2, 9), (3, 10)] ∧ c6_sub.length = 2) ∧
    reconstruct_secret c6_sub 2 = 7 := by
  have hgen : generate_shares (7 : ℚ) 2 3 [1] = [(1, 8), (2, 9), (3, 10)] := by
    norm_num [generate_shares, hornerEval, List.range_succ]
  have hsub0 : c6_sub.Sublist [(1, 8), (2, 9), (3, 10)] :=
    List.Sublist.cons₂ _ (List.Sublist.cons _ (List.Sublist.cons₂ _ List.Sublist.slnil))
  refine ⟨⟨hgen, hsub0, rfl⟩, ?_⟩
  exact shamir_correctness 7 2 3 [1] (by norm_num) (by norm_num)
    (fun i j _ _ hc => Nat.cast_injective hc) c6_sub (hgen ▸ hsub0) rfl

end TSiris
